import Mathlib

/-!
Verification development for the Brain cognitive-memory engine.

The repository ships only the demo client (`examples/python_api_demo.py`);
the engine behind the `brain` module is absent from the sources, so every
engine-side operation below is modelled from the specification
(`spec.md`), which fixes the engine's contract.  Scoring formulas that the
specification leaves open (confidence weights, decay shape, merge rule)
are instantiated with concrete deterministic choices satisfying the
stated properties, as the specification itself instructs.

All real-valued quantities (`weight`, `relevance`, `confidence`,
`decay_factor`) are modelled as rationals; timestamps are a logical clock
that the store advances on every `learn` call.
-/

namespace Brain

/-- Modelled from the spec: priorities accepted by `learn` (§6), absent
from the sources together with the rest of the engine. -/
inductive Priority where
  | low
  | medium
  | high
deriving DecidableEq, Repr

/-- Modelled from the spec: priority-derived base weight,
HIGH = 1.0, MEDIUM = 0.6, LOW = 0.3 (§4.2). -/
def priorityWeight : Priority → ℚ
  | .high => 1
  | .medium => 3/5
  | .low => 3/10

/-- Modelled from the spec: the engine configuration record (§3), absent
from the sources.  `max_memory_size` and `prediction_steps` are positive
integers, the two rates lie in `[0,1]`. -/
structure Configuration where
  max_memory_size : Nat
  prediction_steps : Nat
  confidence_threshold_default : ℚ
  decay_rate : ℚ
deriving DecidableEq, Repr

/-- Modelled from the spec: the default configuration a fresh
`BrainEngine` starts from (values themselves are unconstrained by the
spec; the demo only shows they exist). -/
def defaultConfig : Configuration :=
  { max_memory_size := 1000
    prediction_steps := 5
    confidence_threshold_default := 1/2
    decay_rate := 1/10 }

/-- Drop leading whitespace characters. -/
def dropLeadingWs : List Char → List Char
  | [] => []
  | c :: cs => if c.isWhitespace then dropLeadingWs cs else c :: cs

/-- Trim whitespace from both ends of a character list. -/
def trimChars (cs : List Char) : List Char :=
  (dropLeadingWs ((dropLeadingWs cs).reverse)).reverse

/-- Split a character list at every separator character, keeping empty
parts (the result always has at least one part). -/
def splitSep (p : Char → Bool) (acc : List Char) : List Char → List (List Char)
  | [] => [acc.reverse]
  | c :: cs =>
    if p c then acc.reverse :: splitSep p [] cs
    else splitSep p (c :: acc) cs

/-- Split a character list into maximal whitespace-free words, dropping
the whitespace. -/
def wordsAux (acc : List Char) : List Char → List (List Char)
  | [] => if acc = [] then [] else [acc.reverse]
  | c :: cs =>
    if c.isWhitespace then
      if acc = [] then wordsAux [] cs else acc.reverse :: wordsAux [] cs
    else wordsAux (c :: acc) cs

/-- Parse a list of decimal digits as a natural number; any non-digit
character (including a leading minus sign) rejects, as does emptiness. -/
def parseNatChars (cs : List Char) : Option Nat :=
  if cs = [] then none
  else if cs.all Char.isDigit then
    some (cs.foldl (fun a c => a * 10 + (c.toNat - 48)) 0)
  else none

/-- Parse a positive integer: digits only and value `> 0`.
In particular `"-5"` is rejected. -/
def parsePosIntStr (s : String) : Option Nat :=
  match parseNatChars s.data with
  | some n => if 0 < n then some n else none
  | none => none

/-- Parse a decimal number such as `"0.25"` as a rational and require it
to lie in `[0,1]`. -/
def parseUnitRat (s : String) : Option ℚ :=
  match splitSep (fun c => c = '.') [] s.data with
  | [a] =>
    match parseNatChars a with
    | some n => if n ≤ 1 then some (n : ℚ) else none
    | none => none
  | [a, b] =>
    match parseNatChars a, parseNatChars b with
    | some i, some f =>
      let q : ℚ := (i : ℚ) + (f : ℚ) / ((10 : ℚ) ^ b.length)
      if 0 ≤ q ∧ q ≤ 1 then some q else none
    | _, _ => none
  | _ => none

/-- Modelled from the spec: validation of one supplied key/value pair of
`update_config` (§4.5).  A recognized key with an in-range value yields
the field update to apply; an unknown key or out-of-range value yields
`none`. -/
def validateEntry (kv : String × String) : Option (Configuration → Configuration) :=
  match kv.1 with
  | "max_memory_size" =>
    (parsePosIntStr kv.2).map (fun n c => { c with max_memory_size := n })
  | "prediction_steps" =>
    (parsePosIntStr kv.2).map (fun n c => { c with prediction_steps := n })
  | "confidence_threshold_default" =>
    (parseUnitRat kv.2).map (fun q c => { c with confidence_threshold_default := q })
  | "decay_rate" =>
    (parseUnitRat kv.2).map (fun q c => { c with decay_rate := q })
  | _ => none

/-- Validate every supplied pair; `none` as soon as one fails, otherwise
the list of field updates in order. -/
def validateAll : List (String × String) → Option (List (Configuration → Configuration))
  | [] => some []
  | kv :: rest =>
    match validateEntry kv, validateAll rest with
    | some f, some fs => some (f :: fs)
    | _, _ => none

/-- Modelled from the spec: `update_config` (§4.5), absent from the
sources.  Every supplied pair is validated first; only if all validate is
the configuration replaced (all-or-nothing).  Returns the success flag
and the resulting configuration. -/
def update_config (c : Configuration) (m : List (String × String)) :
    Bool × Configuration :=
  match validateAll m with
  | none => (false, c)
  | some fs => (true, fs.foldl (fun acc f => f acc) c)

/-- Modelled from the spec: `get_config` (§4.5) serializes the current
configuration as a string-keyed mapping. -/
def get_config (c : Configuration) : List (String × String) :=
  [("max_memory_size", toString c.max_memory_size),
   ("prediction_steps", toString c.prediction_steps),
   ("confidence_threshold_default", toString c.confidence_threshold_default),
   ("decay_rate", toString c.decay_rate)]

theorem update_config_none_of_bad {m : List (String × String)}
    (h : ∃ kv ∈ m, validateEntry kv = none) (c : Configuration) :
    update_config c m = (false, c) := by
  obtain ⟨kv, hmem, hnone⟩ := h
  unfold update_config
  have : validateAll m = none := by
    induction m with
    | nil => cases hmem
    | cons hd tl ih =>
      rcases List.mem_cons.mp hmem with heq | htl
      · subst heq
        simp [validateAll, hnone]
      · unfold validateAll
        rw [ih htl]
        cases validateEntry hd <;> rfl
  rw [this]

theorem update_config_some_of_good {m : List (String × String)}
    (h : ∀ kv ∈ m, (validateEntry kv).isSome) (c : Configuration) :
    (update_config c m).1 = true := by
  unfold update_config
  have : ∃ fs, validateAll m = some fs := by
    induction m with
    | nil => exact ⟨[], rfl⟩
    | cons hd tl ih =>
      obtain ⟨fhd, hhd⟩ := Option.isSome_iff_exists.mp (h hd (List.mem_cons_self hd tl))
      obtain ⟨fs, hfs⟩ := ih (fun kv hkv => h kv (List.mem_cons_of_mem hd hkv))
      exact ⟨fhd :: fs, by simp [validateAll, hhd, hfs]⟩
  obtain ⟨fs, hfs⟩ := this
  rw [hfs]

/-- Modelled from the spec: content normalization applied by `learn`
before storage and duplicate detection (§4.2): surrounding whitespace is
trimmed and letters are lower-cased. -/
def normalize (s : String) : String :=
  ((trimChars s.data).map Char.toLower).asString

/-- Modelled from the spec: the normalized tokens derived from a content
string (token-level segments: whitespace-delimited, lower-cased,
de-duplicated, §4.2). -/
def tokensOf (s : String) : List String :=
  ((wordsAux [] (normalize s).data).map List.asString).dedup

/-- Modelled from the spec: a stored knowledge item (§3).  `created_at`
is a logical timestamp; the decay factor is derived lazily from it and is
not stored (§9, decay-as-a-function-of-time). -/
structure KnowledgeItem where
  id : Nat
  content : String
  priority : Priority
  weight : ℚ
  terms : List String
  created_at : Nat
deriving DecidableEq, Repr

/-- Modelled from the spec: the Knowledge Store owned by one engine
instance (§4.2).  `clock` is the logical time advanced by every `learn`
call; `nextId` provides unique, never-reused item ids. -/
structure Store where
  items : List KnowledgeItem
  nextId : Nat
  clock : Nat
deriving DecidableEq, Repr

/-- The store a fresh `BrainEngine` starts from: empty. -/
def initStore : Store :=
  { items := [], nextId := 0, clock := 0 }

/-- Modelled from the spec: the decay factor of an item of age `age`,
shrinking monotonically with age (exponential decay, §4.2), computed
lazily at read/eviction time. -/
def decayFactor (rate : ℚ) (age : Nat) : ℚ :=
  (1 - rate) ^ age

/-- The eviction score of an item at logical time `now`:
`weight * decay_factor` (§4.2). -/
def score (cfg : Configuration) (now : Nat) (it : KnowledgeItem) : ℚ :=
  it.weight * decayFactor cfg.decay_rate (now - it.created_at)

/-- `moreEvictable cfg now a b` holds when `a` must be evicted in
preference to `b`: strictly lower `weight * decay_factor`, or an equal
score and a strictly older `created_at` (§4.2 tie-break). -/
def moreEvictable (cfg : Configuration) (now : Nat) (a b : KnowledgeItem) : Bool :=
  decide (score cfg now a < score cfg now b) ||
    (decide (score cfg now a = score cfg now b) && decide (a.created_at < b.created_at))

/-- The eviction victim among the stored items: the (unique) item no
other item is more evictable than, found by a fold. -/
def victim (cfg : Configuration) (now : Nat) : List KnowledgeItem → Option KnowledgeItem
  | [] => none
  | x :: xs =>
    some (xs.foldl (fun acc it => if moreEvictable cfg now it acc then it else acc) x)

/-- Remove the eviction victim from the item list (no-op on an empty
list). -/
def evictOne (cfg : Configuration) (now : Nat) (items : List KnowledgeItem) :
    List KnowledgeItem :=
  match victim cfg now items with
  | none => items
  | some v => items.eraseP (fun it => it.id == v.id)

/-- The fresh item `learn` inserts for (normalized, non-duplicate)
content at the store's current clock. -/
def newItemOf (st : Store) (content : String) (p : Priority) : KnowledgeItem :=
  { id := st.nextId
    content := normalize content
    priority := p
    weight := priorityWeight p
    terms := tokensOf content
    created_at := st.clock }

/-- Modelled from the spec: `learn` (§4.2), absent from the sources.
Empty/whitespace-only content returns `false` and changes nothing.
Duplicate normalized content refreshes the existing item (weight is the
max of old and new, `created_at` is refreshed) and returns `true`.
Otherwise a fresh item is inserted, evicting the lowest-scored item first
when the insert would exceed `max_memory_size`. -/
def learn (cfg : Configuration) (st : Store) (content : String) (p : Priority) :
    Bool × Store :=
  let n := normalize content
  if n = "" then (false, st)
  else if st.items.any (fun it => it.content == n) then
    (true,
      { st with
        items := st.items.map (fun it =>
          if it.content == n then
            { it with weight := max it.weight (priorityWeight p), created_at := st.clock }
          else it)
        clock := st.clock + 1 })
  else
    let base :=
      if cfg.max_memory_size < st.items.length + 1 then
        evictOne cfg st.clock st.items
      else st.items
    (true,
      { items := base ++ [newItemOf st content p]
        nextId := st.nextId + 1
        clock := st.clock + 1 })

/-- The store reached after a sequence of `learn` calls. -/
def learnAll (cfg : Configuration) (calls : List (String × Priority)) (st : Store) :
    Store :=
  calls.foldl (fun s c => (learn cfg s c.1 c.2).2) st

theorem moreEvictable_iff {cfg : Configuration} {now : Nat} {a b : KnowledgeItem} :
    moreEvictable cfg now a b = true ↔
      score cfg now a < score cfg now b ∨
        (score cfg now a = score cfg now b ∧ a.created_at < b.created_at) := by
  simp [moreEvictable]

theorem moreEvictable_false_iff {cfg : Configuration} {now : Nat} {a b : KnowledgeItem} :
    moreEvictable cfg now a b = false ↔
      (¬ score cfg now a < score cfg now b ∧
        (score cfg now a = score cfg now b → ¬ a.created_at < b.created_at)) := by
  rw [← Bool.not_eq_true, moreEvictable_iff]
  constructor
  · intro h
    constructor
    · intro hlt
      exact h (Or.inl hlt)
    · intro heq hca
      exact h (Or.inr ⟨heq, hca⟩)
  · rintro ⟨h1, h2⟩ (hlt | ⟨heq, hca⟩)
    · exact h1 hlt
    · exact h2 heq hca

theorem moreEvictable_irrefl (cfg : Configuration) (now : Nat) (a : KnowledgeItem) :
    moreEvictable cfg now a a = false := by
  rw [moreEvictable_false_iff]
  exact ⟨lt_irrefl _, fun _ => lt_irrefl _⟩

theorem moreEvictable_shift {cfg : Configuration} {now : Nat}
    {a b v : KnowledgeItem} (hab : moreEvictable cfg now a b = true)
    (hav : moreEvictable cfg now a v = false) :
    moreEvictable cfg now b v = false := by
  rw [moreEvictable_iff] at hab
  rw [moreEvictable_false_iff] at hav ⊢
  obtain ⟨h1, h2⟩ := hav
  rcases hab with hlt | ⟨heq, hca⟩
  · constructor
    · intro hbv
      exact h1 (lt_trans hlt hbv)
    · intro hbv _
      exact h1 (hbv ▸ hlt)
  · constructor
    · intro hbv
      exact h1 (heq ▸ hbv)
    · intro hbv hcb
      exact h2 (heq.trans hbv) (lt_trans hca hcb)

theorem moreEvictable_trans_false {cfg : Configuration} {now : Nat}
    {a b c : KnowledgeItem} (hab : moreEvictable cfg now a b = false)
    (hbc : moreEvictable cfg now b c = false) :
    moreEvictable cfg now a c = false := by
  rw [moreEvictable_false_iff] at hab hbc ⊢
  obtain ⟨h1, h2⟩ := hab
  obtain ⟨h3, h4⟩ := hbc
  rcases lt_trichotomy (score cfg now a) (score cfg now b) with h | h | h
  · exact absurd h h1
  · constructor
    · intro hac
      exact h3 (h ▸ hac)
    · intro hac hca
      have hbc' : score cfg now b = score cfg now c := h.symm.trans hac
      have hba : ¬ a.created_at < b.created_at := h2 h
      have hcb : ¬ b.created_at < c.created_at := h4 hbc'
      omega
  · constructor
    · intro hac
      have : score cfg now b < score cfg now c := lt_trans h hac
      exact h3 this
    · intro hac _
      exact h3 (hac ▸ h)

theorem victimFold_spec (cfg : Configuration) (now : Nat) :
    ∀ (xs : List KnowledgeItem) (acc : KnowledgeItem),
      (xs.foldl (fun a it => if moreEvictable cfg now it a then it else a) acc = acc ∨
        xs.foldl (fun a it => if moreEvictable cfg now it a then it else a) acc ∈ xs) ∧
      moreEvictable cfg now acc
        (xs.foldl (fun a it => if moreEvictable cfg now it a then it else a) acc) = false ∧
      ∀ y ∈ xs,
        moreEvictable cfg now y
          (xs.foldl (fun a it => if moreEvictable cfg now it a then it else a) acc) = false
  | [], acc => ⟨Or.inl rfl, moreEvictable_irrefl cfg now acc, by intro y hy; cases hy⟩
  | it :: xs, acc => by
    obtain ⟨hmem, hacc, hall⟩ :=
      victimFold_spec cfg now xs (if moreEvictable cfg now it acc then it else acc)
    simp only [List.foldl_cons]
    by_cases hcase : moreEvictable cfg now it acc = true
    · rw [if_pos hcase] at hmem hacc hall ⊢
      refine ⟨?_, ?_, ?_⟩
      · rcases hmem with h | h
        · exact Or.inr (by rw [h]; exact List.mem_cons_self it xs)
        · exact Or.inr (List.mem_cons_of_mem it h)
      · exact moreEvictable_shift hcase hacc
      · intro y hy
        rcases List.mem_cons.mp hy with rfl | hy'
        · exact hacc
        · exact hall y hy'
    · rw [Bool.not_eq_true] at hcase
      rw [if_neg (by simp [hcase])] at hmem hacc hall ⊢
      refine ⟨?_, hacc, ?_⟩
      · rcases hmem with h | h
        · exact Or.inl h
        · exact Or.inr (List.mem_cons_of_mem it h)
      · intro y hy
        rcases List.mem_cons.mp hy with rfl | hy'
        · exact moreEvictable_trans_false hcase hacc
        · exact hall y hy'

theorem victim_spec {cfg : Configuration} {now : Nat} {items : List KnowledgeItem}
    {v : KnowledgeItem} (h : victim cfg now items = some v) :
    v ∈ items ∧ ∀ y ∈ items, moreEvictable cfg now y v = false := by
  match items, h with
  | x :: xs, h =>
    obtain ⟨hmem, hacc, hall⟩ := victimFold_spec cfg now xs x
    have hv : xs.foldl (fun a it => if moreEvictable cfg now it a then it else a) x = v := by
      simpa [victim] using h
    rw [hv] at hmem hacc hall
    constructor
    · rcases hmem with h' | h'
      · rw [h']
        exact List.mem_cons_self x xs
      · exact List.mem_cons_of_mem x h'
    · intro y hy
      rcases List.mem_cons.mp hy with rfl | hy'
      · exact hacc
      · exact hall y hy'

theorem victim_isSome (cfg : Configuration) (now : Nat)
    {items : List KnowledgeItem}
    (h : items ≠ []) : ∃ v, victim cfg now items = some v := by
  match items, h with
  | x :: xs, _ => exact ⟨_, rfl⟩

theorem evictOne_length (cfg : Configuration) (now : Nat)
    {items : List KnowledgeItem}
    (h : items ≠ []) : (evictOne cfg now items).length + 1 = items.length := by
  obtain ⟨v, hv⟩ := victim_isSome cfg now h
  obtain ⟨hmem, _⟩ := victim_spec hv
  unfold evictOne
  rw [hv]
  exact List.length_eraseP_add_one hmem (by simp)

theorem learn_step_le (cfg : Configuration) (st : Store) (content : String)
    (p : Priority) (hmax : 1 ≤ cfg.max_memory_size)
    (hlen : st.items.length ≤ cfg.max_memory_size) :
    (learn cfg st content p).2.items.length ≤ cfg.max_memory_size := by
  unfold learn
  by_cases h1 : normalize content = ""
  · simpa [h1] using hlen
  · by_cases h2 : st.items.any (fun it => it.content == normalize content)
    · simpa [h1, h2] using hlen
    · by_cases h3 : cfg.max_memory_size < st.items.length + 1
      · have hne : st.items ≠ [] := by
          intro h
          rw [h] at h3
          simp at h3
          omega
        have hevict := evictOne_length cfg st.clock hne
        simp only [h1, h2, h3, if_true, if_false, Bool.false_eq_true, if_neg,
          not_false_eq_true, ite_true, ite_false]
        simp [List.length_append]
        omega
      · simp only [h1, h2, h3, Bool.false_eq_true, if_neg, not_false_eq_true,
          ite_true, ite_false]
        simp [List.length_append]
        omega

theorem learn_length_le_succ (cfg : Configuration) (st : Store) (content : String)
    (p : Priority) :
    (learn cfg st content p).2.items.length ≤ st.items.length + 1 := by
  unfold learn
  by_cases h1 : normalize content = ""
  · simp [h1]
  · by_cases h2 : st.items.any (fun it => it.content == normalize content)
    · simp [h1, h2]
    · by_cases h3 : cfg.max_memory_size < st.items.length + 1
      · rcases List.eq_nil_or_concat st.items with hnil | _
        · simp [h1, h2, h3, hnil, evictOne, victim]
        · have hne : st.items ≠ [] := by
            intro h
            simp_all
          have hevict := evictOne_length cfg st.clock hne
          simp only [h1, h2, h3, Bool.false_eq_true, if_neg, not_false_eq_true,
            ite_true, ite_false]
          simp [List.length_append]
          omega
      · simp [h1, h2, h3, List.length_append]

theorem learn_of_dup (cfg : Configuration) (st : Store) (c : String) (p : Priority)
    (hne : normalize c ≠ "")
    (hdup : st.items.any (fun i => i.content == normalize c) = true) :
    learn cfg st c p =
      (true,
        { st with
          items := st.items.map (fun i =>
            if i.content == normalize c then
              { i with weight := max i.weight (priorityWeight p),
                       created_at := st.clock }
            else i)
          clock := st.clock + 1 }) := by
  unfold learn
  simp only [hne, hdup, Bool.false_eq_true, if_neg, not_false_eq_true,
    ite_true, ite_false]

theorem learn_mem_content (cfg : Configuration) (st : Store) (content : String)
    (p : Priority) (hne : normalize content ≠ "") :
    ∃ it ∈ (learn cfg st content p).2.items, it.content = normalize content := by
  unfold learn
  by_cases h2 : st.items.any (fun it => it.content == normalize content)
  · obtain ⟨it0, hmem, hbeq⟩ := List.any_eq_true.mp h2
    refine ⟨if it0.content == normalize content then
      { it0 with weight := max it0.weight (priorityWeight p), created_at := st.clock }
      else it0, ?_, ?_⟩
    · simp only [hne, h2, Bool.false_eq_true, if_neg, not_false_eq_true,
        ite_true, ite_false]
      exact List.mem_map_of_mem _ hmem
    · rw [if_pos hbeq]
      exact eq_of_beq hbeq
  · refine ⟨newItemOf st content p, ?_, rfl⟩
    simp only [hne, h2, Bool.false_eq_true, if_neg, not_false_eq_true,
      ite_true, ite_false]
    simp

theorem learnAll_le (cfg : Configuration) (hmax : 1 ≤ cfg.max_memory_size) :
    ∀ (calls : List (String × Priority)) (st : Store),
      st.items.length ≤ cfg.max_memory_size →
      (learnAll cfg calls st).items.length ≤ cfg.max_memory_size := by
  intro calls
  induction calls with
  | nil => intro st h; exact h
  | cons c tl ih =>
    intro st h
    have hstep : learnAll cfg (c :: tl) st = learnAll cfg tl (learn cfg st c.1 c.2).2 := rfl
    rw [hstep]
    exact ih _ (learn_step_le cfg st c.1 c.2 hmax h)

/-- A tiny configuration with capacity one, used to exercise the
capacity/eviction path on concrete inputs. -/
def smallConfig : Configuration :=
  { max_memory_size := 1
    prediction_steps := 5
    confidence_threshold_default := 1/2
    decay_rate := 1/10 }

/-- C1: for every sequence of `learn` calls the Knowledge Store's item
count never exceeds `Configuration.max_memory_size` (both as a preserved
invariant and from the initial empty store), and when an insert would
exceed capacity the evicted item has the lowest `weight * decay_factor`
among the stored items, ties broken by oldest `created_at`, removed
atomically with the new insert. -/
theorem learn_capacity_invariant (cfg : Configuration)
    (hmax : 1 ≤ cfg.max_memory_size) :
    (∀ (calls : List (String × Priority)) (st : Store),
      st.items.length ≤ cfg.max_memory_size →
      (learnAll cfg calls st).items.length ≤ cfg.max_memory_size) ∧
    (∀ calls : List (String × Priority),
      (learnAll cfg calls initStore).items.length ≤ cfg.max_memory_size) ∧
    (∀ (st : Store) (content : String) (p : Priority),
      cfg.max_memory_size < st.items.length + 1 →
      normalize content ≠ "" →
      st.items.any (fun it => it.content == normalize content) = false →
      ∃ v ∈ st.items,
        (∀ y ∈ st.items,
          score cfg st.clock v ≤ score cfg st.clock y ∧
            (score cfg st.clock v = score cfg st.clock y →
              v.created_at ≤ y.created_at)) ∧
        (learn cfg st content p).2.items =
          st.items.eraseP (fun it => it.id == v.id) ++ [newItemOf st content p]) := by
  refine ⟨learnAll_le cfg hmax, ?_, ?_⟩
  · intro calls
    exact learnAll_le cfg hmax calls initStore (by simp [initStore])
  · intro st content p hover hne hdup
    have hnonempty : st.items ≠ [] := by
      intro h
      rw [h] at hover
      simp at hover
      omega
    obtain ⟨v, hv⟩ := victim_isSome cfg st.clock hnonempty
    obtain ⟨hvmem, hvmin⟩ := victim_spec hv
    refine ⟨v, hvmem, ?_, ?_⟩
    · intro y hy
      have h := hvmin y hy
      rw [moreEvictable_false_iff] at h
      refine ⟨le_of_not_lt h.1, fun heq => ?_⟩
      have := h.2 heq.symm
      omega
    · unfold learn
      simp only [hne, hdup, hover, Bool.false_eq_true, if_neg, not_false_eq_true,
        ite_true, ite_false, if_pos]
      unfold evictOne
      rw [hv]

theorem learn_capacity_invariant_witness :
    (learnAll smallConfig [("alpha", Priority.high), ("beta", Priority.low)]
        initStore).items.length ≤ smallConfig.max_memory_size :=
  (learn_capacity_invariant smallConfig (by decide)).2.1
    [("alpha", Priority.high), ("beta", Priority.low)]

/-- C6: `learn` returns `false` if and only if the content normalizes to
the empty string (empty or whitespace-only input); for every other
content and every priority it returns `true` (and, being a total
function, never fails). -/
theorem learn_false_iff_empty_content (cfg : Configuration) (st : Store)
    (content : String) (p : Priority) :
    (learn cfg st content p).1 = false ↔ normalize content = "" := by
  unfold learn
  by_cases h1 : normalize content = ""
  · simp [h1]
  · by_cases h2 : st.items.any (fun it => it.content == normalize content) <;>
      simp [h1, h2]

/-- C7: a second `learn` whose content normalizes identically to an
already-learned content returns `true`, inserts no duplicate (the item
count is unchanged by the second call, so the two calls together grow the
store by at most one), and instead updates the existing item in place:
its weight becomes the max of old and new and its `created_at` is
refreshed to the store's current clock. -/
theorem learn_duplicate_refreshes (cfg : Configuration) (st : Store)
    (c1 c2 : String) (p1 p2 : Priority) (hnorm : normalize c1 = normalize c2)
    (hne : normalize c1 ≠ "") :
    (learn cfg (learn cfg st c1 p1).2 c2 p2).1 = true ∧
    (learn cfg (learn cfg st c1 p1).2 c2 p2).2.items =
      (learn cfg st c1 p1).2.items.map (fun it =>
        if it.content == normalize c2 then
          { it with weight := max it.weight (priorityWeight p2),
                    created_at := (learn cfg st c1 p1).2.clock }
        else it) ∧
    (learn cfg (learn cfg st c1 p1).2 c2 p2).2.items.length =
      (learn cfg st c1 p1).2.items.length ∧
    (learn cfg (learn cfg st c1 p1).2 c2 p2).2.items.length ≤ st.items.length + 1 := by
  have hne2 : normalize c2 ≠ "" := hnorm ▸ hne
  obtain ⟨it, hmemit, hcontent⟩ := learn_mem_content cfg st c1 p1 hne
  have hdup : (learn cfg st c1 p1).2.items.any
      (fun i => i.content == normalize c2) = true := by
    refine List.any_eq_true.mpr ⟨it, hmemit, ?_⟩
    rw [hcontent, hnorm]
    simp
  have key := learn_of_dup cfg (learn cfg st c1 p1).2 c2 p2 hne2 hdup
  refine ⟨by rw [key], by rw [key], by rw [key]; simp, ?_⟩
  rw [key]
  simpa using learn_length_le_succ cfg st c1 p1

theorem learn_duplicate_refreshes_witness :
    (learn defaultConfig
        (learn defaultConfig initStore "Cat" Priority.low).2 "cat"
        Priority.high).1 = true :=
  (learn_duplicate_refreshes defaultConfig initStore "Cat" "cat"
    Priority.low Priority.high (by decide) (by decide)).1

/-- Modelled from the spec: memory-type classification of query results
(§3, §4.3), absent from the sources. -/
inductive MemoryType where
  | SEMANTIC
  | EPISODIC
  | UNCLASSIFIED
deriving DecidableEq, Repr

/-- Modelled from the spec: a transient query result (§3). -/
structure QueryResult where
  content : String
  relevance : ℚ
  memory_type : MemoryType
deriving DecidableEq, Repr

/-- Intersection-over-union of two (de-duplicated) term lists, the base
relevance of §4.3; `0` when both are empty. -/
def iou (a b : List String) : ℚ :=
  let inter := (a.filter (fun t => decide (t ∈ b))).length
  let union := a.length + b.length - inter
  if union = 0 then 0 else (inter : ℚ) / (union : ℚ)

/-- Modelled from the spec: the relevance of a stored item for the given
query terms (§4.3): term overlap as base relevance, multiplied by the
item's current `weight * decay_factor`. -/
def relevance (cfg : Configuration) (now : Nat) (qt : List String)
    (it : KnowledgeItem) : ℚ :=
  iou qt it.terms * score cfg now it

/-- Modelled from the spec: the deterministic result order of §4.3 —
descending relevance, ties by descending weight, then by insertion order
(`id`s are assigned in insertion order, earlier wins). -/
def rankRel (a b : KnowledgeItem × ℚ) : Prop :=
  b.2 < a.2 ∨
    (a.2 = b.2 ∧
      (b.1.weight < a.1.weight ∨
        (a.1.weight = b.1.weight ∧ a.1.id ≤ b.1.id)))

instance : DecidableRel rankRel := fun a b => by
  unfold rankRel
  exact inferInstance

instance : IsTrans (KnowledgeItem × ℚ) rankRel := by
  constructor
  intro a b c hab hbc
  unfold rankRel at *
  rcases hab with h1 | ⟨h1, h1'⟩ <;> rcases hbc with h2 | ⟨h2, h2'⟩
  · exact Or.inl (lt_trans h2 h1)
  · exact Or.inl (h2 ▸ h1)
  · exact Or.inl (h1 ▸ h2)
  · refine Or.inr ⟨h1.trans h2, ?_⟩
    rcases h1' with h3 | ⟨h3, h3'⟩ <;> rcases h2' with h4 | ⟨h4, h4'⟩
    · exact Or.inl (lt_trans h4 h3)
    · exact Or.inl (h4 ▸ h3)
    · exact Or.inl (h3 ▸ h4)
    · exact Or.inr ⟨h3.trans h4, le_trans h3' h4'⟩

instance : IsTotal (KnowledgeItem × ℚ) rankRel := by
  constructor
  intro a b
  unfold rankRel
  rcases lt_trichotomy a.2 b.2 with h | h | h
  · exact Or.inr (Or.inl h)
  · rcases lt_trichotomy a.1.weight b.1.weight with h' | h' | h'
    · exact Or.inr (Or.inr ⟨h.symm, Or.inl h'⟩)
    · rcases Nat.le_total a.1.id b.1.id with h'' | h''
      · exact Or.inl (Or.inr ⟨h, Or.inr ⟨h', h''⟩⟩)
      · exact Or.inr (Or.inr ⟨h.symm, Or.inr ⟨h'.symm, h''⟩⟩)
    · exact Or.inl (Or.inr ⟨h, Or.inl h'⟩)
  · exact Or.inl (Or.inl h)

/-- The ranked list of scored items a query produces before truncation:
zero-relevance items are filtered out and the rest are sorted by the
deterministic order of §4.3. -/
def queryRank (cfg : Configuration) (st : Store) (q : String) :
    List (KnowledgeItem × ℚ) :=
  List.insertionSort rankRel
    ((st.items.map (fun it => (it, relevance cfg st.clock (tokensOf q) it))).filter
      (fun p => decide (0 < p.2)))

/-- Recency window of the EPISODIC heuristic, in ticks of the logical
clock (a modelled choice; the spec leaves the exact rule open). -/
def recencyWindow : Nat := 3

/-- Modelled from the spec: deterministic memory-type heuristic (§4.3) —
an item sharing a term with another stored item is SEMANTIC, otherwise a
recent item is EPISODIC, anything else UNCLASSIFIED. -/
def classify (st : Store) (it : KnowledgeItem) : MemoryType :=
  if st.items.any (fun o =>
      decide (o.id ≠ it.id) && o.terms.any (fun t => decide (t ∈ it.terms))) then
    .SEMANTIC
  else if st.clock - it.created_at ≤ recencyWindow then .EPISODIC
  else .UNCLASSIFIED

/-- Project a ranked scored item to the transient `QueryResult`. -/
def toQueryResult (st : Store) (p : KnowledgeItem × ℚ) : QueryResult :=
  { content := p.1.content, relevance := p.2, memory_type := classify st p.1 }

/-- Modelled from the spec: `query_memory` (§4.3), absent from the
sources: rank all stored items against the query, keep the strictly
relevant ones in the deterministic order, truncate to `limit`. -/
def query_memory (cfg : Configuration) (st : Store) (q : String) (limit : Int) :
    List QueryResult :=
  ((queryRank cfg st q).take limit.toNat).map (toQueryResult st)

/-- C4: the sequence returned by `query_memory` is sorted by
non-increasing relevance, ties broken by descending item weight and then
by insertion order (earlier item first, via the ever-increasing item
ids), so the result order is deterministic given the store contents. -/
theorem query_memory_sorted (cfg : Configuration) (st : Store) (q : String) :
    List.Sorted rankRel (queryRank cfg st q) ∧
    (∀ limit : Int,
      query_memory cfg st q limit =
        ((queryRank cfg st q).take limit.toNat).map (toQueryResult st)) ∧
    (∀ limit : Int,
      (query_memory cfg st q limit).Pairwise
        (fun a b => b.relevance ≤ a.relevance)) := by
  have hsorted : List.Sorted rankRel (queryRank cfg st q) :=
    List.sorted_insertionSort rankRel _
  refine ⟨hsorted, fun _ => rfl, fun limit => ?_⟩
  have htake : List.Pairwise rankRel ((queryRank cfg st q).take limit.toNat) :=
    List.Pairwise.sublist (List.take_sublist _ _) hsorted
  refine List.Pairwise.map _ ?_ htake
  intro a b hab
  rcases hab with h | ⟨h, _⟩
  · exact le_of_lt h
  · exact le_of_eq h.symm

/-- C5: a non-positive `limit` yields the empty sequence; a `limit` at
least the number of available results yields exactly all results (no
padding, no duplication); a query with zero relevance against every
stored item yields the empty sequence rather than an error. -/
theorem query_memory_limits (cfg : Configuration) (st : Store) (q : String) :
    (∀ limit : Int, limit ≤ 0 → query_memory cfg st q limit = []) ∧
    (∀ limit : Int, (queryRank cfg st q).length ≤ limit.toNat →
      query_memory cfg st q limit = (queryRank cfg st q).map (toQueryResult st) ∧
      (query_memory cfg st q limit).length = (queryRank cfg st q).length) ∧
    ((∀ it ∈ st.items, relevance cfg st.clock (tokensOf q) it = 0) →
      ∀ limit : Int, query_memory cfg st q limit = []) := by
  refine ⟨?_, ?_, ?_⟩
  · intro limit hle
    unfold query_memory
    rw [Int.toNat_of_nonpos hle]
    simp
  · intro limit hge
    unfold query_memory
    rw [List.take_of_length_le hge]
    exact ⟨rfl, by simp⟩
  · intro hzero limit
    have hnil : queryRank cfg st q = [] := by
      unfold queryRank
      have : (st.items.map (fun it =>
          (it, relevance cfg st.clock (tokensOf q) it))).filter
            (fun p => decide (0 < p.2)) = [] := by
        rw [List.filter_eq_nil_iff]
        intro p hp
        obtain ⟨it, hit, rfl⟩ := List.mem_map.mp hp
        simp [hzero it hit]
      rw [this]
      rfl
    unfold query_memory
    rw [hnil]
    simp

/-- C3: `update_config` is all-or-nothing — any unknown key or
out-of-range value makes it return `false` with the configuration (as
observable through `get_config`) exactly the prior one, while a fully
valid mapping makes it return `true` and replaces the whole
configuration with the validated updates applied in order; in
particular `update_config {max_memory_size: "-5"}` returns `false` and
leaves `get_config` unchanged, while a valid
`{max_memory_size: "2000", prediction_steps: "10"}` update really sets
both fields and touches nothing else. -/
theorem update_config_all_or_nothing (c : Configuration)
    (m : List (String × String)) :
    ((∃ kv ∈ m, validateEntry kv = none) →
      update_config c m = (false, c) ∧
        get_config (update_config c m).2 = get_config c) ∧
    ((∀ kv ∈ m, (validateEntry kv).isSome) → (update_config c m).1 = true) ∧
    (∀ fs, validateAll m = some fs →
      update_config c m = (true, fs.foldl (fun acc f => f acc) c)) ∧
    (update_config c [("max_memory_size", "-5")] = (false, c) ∧
      get_config (update_config c [("max_memory_size", "-5")]).2 = get_config c) ∧
    (update_config c [("max_memory_size", "2000"), ("prediction_steps", "10")] =
      (true, { c with max_memory_size := 2000, prediction_steps := 10 })) := by
  refine ⟨?_, fun h => update_config_some_of_good h c, ?_, ?_, ?_⟩
  · intro h
    rw [update_config_none_of_bad h c]
    exact ⟨rfl, rfl⟩
  · intro fs hfs
    unfold update_config
    rw [hfs]
  · have h : update_config c [("max_memory_size", "-5")] = (false, c) :=
      update_config_none_of_bad
        ⟨("max_memory_size", "-5"), by simp, rfl⟩ c
    rw [h]
    exact ⟨rfl, rfl⟩
  · rfl

theorem update_config_all_or_nothing_witness :
    update_config defaultConfig [("max_memory_size", "-5")] =
        (false, defaultConfig) ∧
    update_config defaultConfig
        [("max_memory_size", "2000"), ("prediction_steps", "10")] =
      (true,
        { defaultConfig with max_memory_size := 2000, prediction_steps := 10 }) :=
  ⟨((update_config_all_or_nothing defaultConfig
      [("max_memory_size", "-5")]).1
      ⟨("max_memory_size", "-5"), by simp, rfl⟩).1,
    (update_config_all_or_nothing defaultConfig
      [("max_memory_size", "2000"), ("prediction_steps", "10")]).2.2.2.2⟩

theorem query_memory_limits_witness :
    query_memory defaultConfig initStore "anything" 0 = [] ∧
    query_memory defaultConfig initStore "anything" 3 = [] :=
  ⟨(query_memory_limits defaultConfig initStore "anything").1 0 (by decide),
    (query_memory_limits defaultConfig initStore "anything").2.2
      (by intro it hit; cases hit) 3⟩

/-- Modelled from the spec: segment types (§3). -/
inductive SegmentType where
  | SENTENCE
  | CLAUSE
  | TOKEN
  | OTHER
deriving DecidableEq, Repr

/-- Modelled from the spec: a typed, confidence-scored span of the input
text (§3). -/
structure Segment where
  text : String
  confidence : ℚ
  segment_type : SegmentType
deriving DecidableEq, Repr

/-- Sentence-terminal punctuation (§4.1). -/
def isTerminalChar (c : Char) : Bool :=
  c = '.' || c = '!' || c = '?'

/-- Strong mid-sentence punctuation separating clauses (§4.1). -/
def isClauseChar (c : Char) : Bool :=
  c = ',' || c = ';' || c = ':'

/-- Split a character list into chunks, closing a chunk after every
maximal run of separator characters; the separators stay attached to the
chunk they close, so no character is dropped. -/
def splitRunAux (p : Char → Bool) (acc : List Char) : List Char → List (List Char)
  | [] => if acc = [] then [] else [acc.reverse]
  | c :: cs =>
    if p c && (match cs with | [] => true | d :: _ => !(p d)) then
      (c :: acc).reverse :: splitRunAux p [] cs
    else splitRunAux p (c :: acc) cs

/-- Top-level run splitter starting from an empty accumulator. -/
def splitRun (p : Char → Bool) (cs : List Char) : List (List Char) :=
  splitRunAux p [] cs

theorem splitRunAux_flatten (p : Char → Bool) :
    ∀ (cs acc : List Char), (splitRunAux p acc cs).flatten = acc.reverse ++ cs
  | [], acc => by
    by_cases h : acc = ([] : List Char)
    · simp [splitRunAux, h]
    · simp [splitRunAux, h]
  | c :: cs, acc => by
    unfold splitRunAux
    by_cases h : (p c && (match cs with | [] => true | d :: _ => !(p d))) = true
    · rw [if_pos h]
      simp [splitRunAux_flatten p cs []]
    · rw [if_neg h]
      rw [splitRunAux_flatten p cs (c :: acc)]
      simp

theorem splitRun_flatten (p : Char → Bool) (cs : List Char) :
    (splitRun p cs).flatten = cs := by
  simp [splitRun, splitRunAux_flatten p cs []]

/-- Modelled from the spec: the configurable minimum span length below
which an unpunctuated span is tokenized (§4.1); a fixed modelled
constant. -/
def minTokenLen : Nat := 20

/-- Modelled from the spec (§4.1): classify one sentence-level span.  A
span containing terminal punctuation is a SENTENCE; otherwise a span
splitting into two or more clause chunks yields CLAUSEs; otherwise a
short span is split into whitespace-delimited TOKENs (whitespace stays
attached, so nothing is dropped); anything else is OTHER.  Confidence is
a fixed structural score per shape, in `[0,1]`. -/
def classifySpan (span : List Char) : List Segment :=
  if span.any isTerminalChar then
    [{ text := span.asString, confidence := 9/10, segment_type := .SENTENCE }]
  else if 2 ≤ (splitRun isClauseChar span).length then
    (splitRun isClauseChar span).map
      (fun cl => { text := cl.asString, confidence := 7/10, segment_type := .CLAUSE })
  else if span.length ≤ minTokenLen then
    (splitRun (fun c => c.isWhitespace) span).map
      (fun t => { text := t.asString, confidence := 1/2, segment_type := .TOKEN })
  else
    [{ text := span.asString, confidence := 3/10, segment_type := .OTHER }]

/-- Modelled from the spec: `segment` (§4.1), absent from the sources:
split on sentence-terminal punctuation first, then classify every span,
subdividing unpunctuated spans into clauses or tokens. -/
def segment (text : String) : List Segment :=
  (splitRun isTerminalChar text.data).flatMap classifySpan

theorem data_asString (l : List Char) : (List.asString l).data = l := rfl

theorem classifySpan_flatten (span : List Char) :
    ((classifySpan span).map (fun s => s.text.data)).flatten = span := by
  unfold classifySpan
  by_cases h1 : span.any isTerminalChar = true
  · rw [if_pos h1]
    simp [data_asString]
  · rw [if_neg h1]
    by_cases h2 : 2 ≤ (splitRun isClauseChar span).length
    · rw [if_pos h2]
      simp only [List.map_map, Function.comp_def, data_asString]
      simpa using splitRun_flatten isClauseChar span
    · rw [if_neg h2]
      by_cases h3 : span.length ≤ minTokenLen
      · rw [if_pos h3]
        simp only [List.map_map, Function.comp_def, data_asString]
        simpa using splitRun_flatten (fun c => c.isWhitespace) span
      · rw [if_neg h3]
        simp [data_asString]

theorem join_data (ss : List String) :
    (String.join ss).data = (ss.map String.data).flatten := by
  have aux : ∀ (l : List String) (acc : String),
      (l.foldl (fun r s => r ++ s) acc).data =
        acc.data ++ (l.map String.data).flatten := by
    intro l
    induction l with
    | nil => intro acc; simp
    | cons hd tl ih =>
      intro acc
      simp only [List.foldl_cons, List.map_cons, List.flatten_cons]
      rw [ih (acc ++ hd), String.data_append]
      simp
  have h := aux ss ""
  simp only [String.join]
  rw [h]
  rfl

theorem flatMap_classify_flatten :
    ∀ spans : List (List Char),
      ((spans.flatMap classifySpan).map (fun s => s.text.data)).flatten = spans.flatten
  | [] => rfl
  | sp :: sps => by
    rw [List.flatMap_cons, List.map_append, List.flatten_append,
      classifySpan_flatten sp, flatMap_classify_flatten sps]
    rfl

/-- C8: for every input text the segments returned by `segment` form a
partition of the input — concatenating the segment texts in order
reproduces the input exactly (the modelled segmentation drops no
separator characters at all) — and segmenting the empty string yields
the empty sequence rather than an error. -/
theorem segment_partition (text : String) :
    String.join ((segment text).map Segment.text) = text ∧
    segment "" = [] := by
  constructor
  · apply String.ext
    rw [join_data, List.map_map]
    unfold segment
    have hcomp : (String.data ∘ Segment.text) = fun s : Segment => s.text.data := rfl
    rw [hcomp, flatMap_classify_flatten, splitRun_flatten]
  · rfl

/-- Modelled from the spec: the result of one `simulate` call (§4.4);
`metadata` is a string-keyed mapping, possibly empty but never absent. -/
structure SimulationResult where
  steps : Nat
  outcome : String
  confidence : ℚ
  metadata : List (String × String)
deriving DecidableEq, Repr

/-- Modelled from the spec: the InvalidArgument condition `simulate`
signals on out-of-range arguments (§4.4, §7). -/
inductive SimError where
  | invalidArgument
deriving DecidableEq, Repr

/-- Modelled from the spec: the per-call simulation state (§3). -/
structure SimState where
  steps_taken : Nat
  current_outcome : String
  confidence : ℚ
  visited : List Nat
deriving DecidableEq, Repr

/-- Modelled from the spec: the minimal relevance floor below which a
candidate does not continue the traversal (§4.4); a modelled constant. -/
def relevanceFloor : ℚ := 1/100

/-- The top unvisited candidate above the relevance floor, by the
deterministic order of §4.3. -/
def topUnvisited (cfg : Configuration) (st : Store) (q : String)
    (visited : List Nat) : Option (KnowledgeItem × ℚ) :=
  ((queryRank cfg st q).filter (fun p =>
    decide (p.1.id ∉ visited) && decide (relevanceFloor ≤ p.2))).head?

/-- Modelled from the spec: one simulation step (§4.4): merge the
selected item's content into the outcome, update the confidence as a
running average with the step relevance, mark the item visited. -/
def simStep (s : SimState) (it : KnowledgeItem) (r : ℚ) : SimState :=
  { steps_taken := s.steps_taken + 1
    current_outcome := s.current_outcome ++ " " ++ it.content
    confidence := (s.confidence + r) / 2
    visited := it.id :: s.visited }

/-- Modelled from the spec: the bounded traversal loop of `simulate`
(§4.4), with the remaining-step budget as fuel.  It stops on fuel
exhaustion (`steps_taken = max_steps`), on reaching the confidence
threshold, or when no unvisited candidate above the floor remains. -/
def simLoop (cfg : Configuration) (st : Store) (thr : ℚ) :
    Nat → SimState → SimState
  | 0, s => s
  | fuel + 1, s =>
    if thr ≤ s.confidence then s
    else
      match topUnvisited cfg st s.current_outcome s.visited with
      | none => s
      | some (it, r) => simLoop cfg st thr fuel (simStep s it r)

/-- Modelled from the spec: `simulate` (§4.4), absent from the sources.
Out-of-range arguments signal InvalidArgument before any state is
touched; an empty scenario short-circuits to the degenerate result;
otherwise the state is seeded from an initial query and the bounded loop
runs. -/
def simulate (cfg : Configuration) (st : Store) (scenario : String)
    (max_steps : Int) (thr : ℚ) : Except SimError SimulationResult :=
  if max_steps < 0 then .error .invalidArgument
  else if thr < 0 ∨ 1 < thr then .error .invalidArgument
  else if normalize scenario = "" then
    .ok { steps := 0, outcome := "", confidence := 0, metadata := [] }
  else
    let init := queryRank cfg st scenario
    let conf0 := match init.head? with | some p => p.2 | none => 0
    let s0 : SimState :=
      { steps_taken := 0, current_outcome := scenario, confidence := conf0,
        visited := [] }
    let sf := simLoop cfg st thr max_steps.toNat s0
    .ok { steps := sf.steps_taken, outcome := sf.current_outcome,
          confidence := sf.confidence,
          metadata := [("visited_count", toString sf.visited.length)] }

theorem simLoop_steps_le (cfg : Configuration) (st : Store) (thr : ℚ) :
    ∀ (fuel : Nat) (s : SimState),
      (simLoop cfg st thr fuel s).steps_taken ≤ s.steps_taken + fuel
  | 0, s => le_refl _
  | fuel + 1, s => by
    unfold simLoop
    by_cases h : thr ≤ s.confidence
    · rw [if_pos h]
      omega
    · rw [if_neg h]
      cases htop : topUnvisited cfg st s.current_outcome s.visited with
      | none =>
        have hred : (match (none : Option (KnowledgeItem × ℚ)) with
            | none => s
            | some (it, r) => simLoop cfg st thr fuel (simStep s it r)) = s := rfl
        rw [hred]
        omega
      | some p =>
        obtain ⟨it, r⟩ := p
        have hred : (match (some (it, r) : Option (KnowledgeItem × ℚ)) with
            | none => s
            | some (it, r) => simLoop cfg st thr fuel (simStep s it r)) =
              simLoop cfg st thr fuel (simStep s it r) := rfl
        rw [hred]
        have hle := simLoop_steps_le cfg st thr fuel (simStep s it r)
        have hstep : (simStep s it r).steps_taken = s.steps_taken + 1 := rfl
        omega

/-- C2: for every scenario, every `max_steps ≥ 0` and every confidence
threshold in `[0,1]`, `simulate` returns a `SimulationResult` (it never
errors, in particular not on exhaustion of candidates) and the returned
step count is at most `max_steps`. -/
theorem simulate_total_bounded (cfg : Configuration) (st : Store)
    (scenario : String) (max_steps : Int) (thr : ℚ)
    (h1 : 0 ≤ max_steps) (h2 : 0 ≤ thr) (h3 : thr ≤ 1) :
    ∃ r : SimulationResult,
      simulate cfg st scenario max_steps thr = .ok r ∧
        (r.steps : Int) ≤ max_steps := by
  unfold simulate
  rw [if_neg (not_lt.mpr h1), if_neg (by push_neg; exact ⟨h2, h3⟩)]
  by_cases hsc : normalize scenario = ""
  · rw [if_pos hsc]
    exact ⟨_, rfl, by simpa using h1⟩
  · rw [if_neg hsc]
    refine ⟨_, rfl, ?_⟩
    have hloop := simLoop_steps_le cfg st thr max_steps.toNat
      { steps_taken := 0,
        current_outcome := scenario,
        confidence :=
          match (queryRank cfg st scenario).head? with
          | some p => p.2
          | none => 0,
        visited := [] }
    simp only [Nat.zero_add] at hloop
    calc ((simLoop cfg st thr max_steps.toNat _).steps_taken : Int)
        ≤ (max_steps.toNat : Int) := by exact_mod_cast hloop
      _ = max_steps := Int.toNat_of_nonneg h1

theorem simulate_total_bounded_witness :
    ∃ r : SimulationResult,
      simulate defaultConfig initStore "hello" 5 0 = .ok r ∧
        (r.steps : Int) ≤ 5 :=
  simulate_total_bounded defaultConfig initStore "hello" 5 0
    (by decide) (le_refl 0) zero_le_one

/-- C9: for the empty scenario string, `simulate` returns the degenerate
result with `steps = 0`, `outcome = ""` and `confidence = 0`, regardless
of configuration and store contents; in particular at
`max_steps = 5` and threshold `0.1`. -/
theorem simulate_empty_scenario (cfg : Configuration) (st : Store) :
    simulate cfg st "" 5 (1/10) =
      .ok { steps := 0, outcome := "", confidence := 0, metadata := [] } := by
  unfold simulate
  rw [if_neg (by norm_num), if_neg (by norm_num),
    if_pos (show normalize "" = "" by rfl)]

/-- One engine instance: the state a `BrainEngine()` owns
(Knowledge Store and Configuration, §2). -/
structure Engine where
  store : Store
  config : Configuration
deriving Repr

/-- The state of a freshly constructed `BrainEngine()`. -/
def freshEngine : Engine :=
  { store := initStore, config := defaultConfig }

/-- One call of the public API surface (§6), as issued by the demo
script. -/
inductive APICall where
  | segmentC (text : String)
  | learnC (content : String) (priority : String)
  | getStatusC
  | simulateC (scenario : String) (max_steps : Int) (thr : ℚ)
  | queryC (q : String) (limit : Int)
  | getConfigC
  | updateConfigC (m : List (String × String))

/-- Modelled from the spec: string priorities accepted by `learn` (§6). -/
def parsePriority : String → Priority
  | "high" => .high
  | "medium" => .medium
  | _ => .low

/-- The engine-state effect of one API call: only `learn` mutates the
store and only `update_config` mutates the configuration; `segment`,
`simulate`, `query_memory`, `get_status` and `get_config` are pure reads
(§5: `simulate` performs only reads against the store). -/
def applyCall (e : Engine) : APICall → Engine
  | .learnC c p => { e with store := (learn e.config e.store c (parsePriority p)).2 }
  | .updateConfigC m => { e with config := (update_config e.config m).2 }
  | _ => e

/-- Whether a call is a `learn` call. -/
def isLearnCall : APICall → Bool
  | .learnC _ _ => true
  | _ => false

/-- Transcribed from `examples/python_api_demo.py`, `demo_segmentation`
(lines 25-53): a fresh engine segments four fixed texts. -/
def demoSegmentationCalls : List APICall :=
  [.segmentC "Hello world! This is a test.",
   .segmentC "The quick brown fox jumps over the lazy dog.",
   .segmentC "Python is a programming language. It\x27s very popular.",
   .segmentC ""]

/-- Transcribed from `examples/python_api_demo.py`, `demo_learning`
(lines 56-89): a fresh engine learns five fixed items, then reads its
status. -/
def demoLearningCalls : List APICall :=
  [.learnC "Python is a high-level programming language" "high",
   .learnC "The capital of France is Paris" "medium",
   .learnC "Today\x27s weather is sunny" "low",
   .learnC "Machine learning uses algorithms to find patterns" "high",
   .learnC "Coffee tastes good" "low",
   .getStatusC]

/-- Transcribed from `examples/python_api_demo.py`, `demo_simulation`
(lines 92-125): a fresh engine runs four simulations with
`max_steps = 5` and `confidence_threshold = 0.1`; no `learn` call occurs
in this section. -/
def demoSimulationCalls : List APICall :=
  [.simulateC "What happens if I learn Python programming?" 5 (1/10),
   .simulateC "Predict the outcome of studying machine learning" 5 (1/10),
   .simulateC "What if I drink coffee every morning?" 5 (1/10),
   .simulateC "" 5 (1/10)]

/-- Transcribed from `examples/python_api_demo.py`, `demo_memory_query`
(lines 128-171): a fresh engine learns four items at priority
`"medium"`, then runs four queries with `limit = 3`. -/
def demoMemoryQueryCalls : List APICall :=
  [.learnC "Python is used for web development" "medium",
   .learnC "Machine learning requires data" "medium",
   .learnC "Paris is the capital of France" "medium",
   .learnC "Coffee contains caffeine" "medium",
   .queryC "programming languages" 3,
   .queryC "European capitals" 3,
   .queryC "beverages" 3,
   .queryC "nonexistent topic" 3]

/-- Transcribed from `examples/python_api_demo.py`, `demo_configuration`
(lines 174-205): a fresh engine reads its configuration, updates two
keys, reads it again. -/
def demoConfigurationCalls : List APICall :=
  [.getConfigC,
   .updateConfigC [("max_memory_size", "2000"), ("prediction_steps", "10")],
   .getConfigC]

/-- Transcribed from `examples/python_api_demo.py`,
`demo_convenience_functions` (lines 208-228): the module-level helpers
create transient engines of their own; transcribed as one segment and
one query against a transient fresh engine. -/
def demoConvenienceCalls : List APICall :=
  [.segmentC "Quick test of convenience functions",
   .queryC "test query" 10]

/-- Transcribed from `examples/python_api_demo.py`,
`demo_performance_test` (lines 231-265): a fresh engine segments a long
text, learns ten generated items at `"low"`, then runs five generated
queries with `limit = 3`. -/
def demoPerformanceCalls : List APICall :=
  [APICall.segmentC (String.join (List.replicate 20
      "This is a longer text for performance testing. "))] ++
  ((List.range 10).map (fun i =>
    APICall.learnC ("Test knowledge item number " ++ toString i) "low")) ++
  ((List.range 5).map (fun i =>
    APICall.queryC ("test query " ++ toString i) 3))

/-- Transcribed from `examples/python_api_demo.py`, `main`
(lines 268-284): the seven demo sections in order; each section function
constructs its own fresh `BrainEngine()` and never receives another
section's engine. -/
def mainSections : List (List APICall) :=
  [demoSegmentationCalls, demoLearningCalls, demoSimulationCalls,
   demoMemoryQueryCalls, demoConfigurationCalls, demoConvenienceCalls,
   demoPerformanceCalls]

/-- Run one demo section the way the script does: on its own fresh
engine. -/
def runSection (calls : List APICall) : Engine :=
  calls.foldl applyCall freshEngine

theorem applyCall_store (e : Engine) (c : APICall)
    (h : isLearnCall c = false) : (applyCall e c).store = e.store := by
  cases c
  case learnC content p => simp [isLearnCall] at h
  all_goals rfl

theorem foldl_store_const :
    ∀ (calls : List APICall) (e : Engine),
      calls.all (fun c => !(isLearnCall c)) = true →
      (calls.foldl applyCall e).store = e.store
  | [], _, _ => rfl
  | c :: cs, e, h => by
    rw [List.foldl_cons]
    have hc : isLearnCall c = false := by
      have := List.all_eq_true.mp h c (List.mem_cons_self c cs)
      simpa using this
    have hcs : cs.all (fun c => !(isLearnCall c)) = true := by
      rw [List.all_eq_true] at h ⊢
      exact fun x hx => h x (List.mem_cons_of_mem c hx)
    rw [foldl_store_const cs (applyCall e c) hcs, applyCall_store e c hc]

/-- C10: the `demo_simulation` section of the demo script contains no
`learn` call, and — since it runs on its own freshly constructed engine,
per the transcription `runSection` — the store every one of its
`simulate` calls observes (after any prefix of the section) is still the
initial empty store: no knowledge stored by `demo_learning` or
`demo_memory_query` is visible to any simulation. -/
theorem demo_simulation_fresh_store :
    demoSimulationCalls.all (fun c => !(isLearnCall c)) = true ∧
    (∀ n : Nat,
      ((demoSimulationCalls.take n).foldl applyCall freshEngine).store =
        initStore) ∧
    (∀ n : Nat,
      ((demoSimulationCalls.take n).foldl applyCall freshEngine).store.items =
        []) ∧
    (runSection demoSimulationCalls).store.items = [] := by
  have hall : demoSimulationCalls.all (fun c => !(isLearnCall c)) = true := rfl
  have hpre : ∀ n : Nat,
      ((demoSimulationCalls.take n).foldl applyCall freshEngine).store =
        initStore := by
    intro n
    have htake : (demoSimulationCalls.take n).all
        (fun c => !(isLearnCall c)) = true := by
      rw [List.all_eq_true]
      intro x hx
      exact List.all_eq_true.mp hall x (List.take_subset n demoSimulationCalls hx)
    rw [foldl_store_const _ _ htake]
    rfl
  refine ⟨hall, hpre, fun n => by rw [hpre n]; rfl, ?_⟩
  have hfull := foldl_store_const demoSimulationCalls freshEngine hall
  rw [runSection, hfull]
  rfl

end Brain
